import Mathlib

/-!
Verification of the indentation-based scope scanner, the qualified path
builder and the test catalog builder of the editor extension
(src/src/extension.ts).  Lines of a buffer are modelled as a `List String`;
the regular expressions of the source are translated into deterministic
character-list matchers (each regex here is anchored and free of genuine
backtracking, so a greedy match is exact).
-/

namespace PyFqn

/-- Whitespace as matched by the JS regex class for spaces and by trim/trimStart
(ASCII part; the exotic Unicode space code points are treated uniformly by both
the regexes and the trims in the source, so omitting them loses nothing). -/
def isJsSpace (c : Char) : Bool :=
  c = ' ' || c = '\t' || c = '\n' || c = '\r' || c = '\x0b' || c = '\x0c'

/-- Word characters as matched by the JS word class, i.e. A-Z, a-z, 0-9 and underscore. -/
def isWordChar (c : Char) : Bool :=
  ('a' ≤ c && c ≤ 'z') || ('A' ≤ c && c ≤ 'Z') || ('0' ≤ c && c ≤ '9') || c = '_'

/-- ASCII letter test, used by the forward-scan class pattern for the first
identifier character. -/
def isAsciiLetter (c : Char) : Bool :=
  ('a' ≤ c && c ≤ 'z') || ('A' ≤ c && c ≤ 'Z')

/-- Drop a literal from the front of a character list; `none` when the list does
not start with that literal. -/
def dropLit : List Char → List Char → Option (List Char)
  | [], cs => some cs
  | _ :: _, [] => none
  | p :: ps, c :: cs => if c = p then dropLit ps cs else none

/-- Capture of the backward-scan class regex (caret, `class`, one or more
spaces, a captured run of one or more word characters) applied to a line whose
leading whitespace has been removed. -/
def matchClassCtx (stripped : List Char) : Option (List Char) :=
  match dropLit ("class".data) stripped with
  | none => none
  | some r =>
    if (r.takeWhile isJsSpace).isEmpty then none
    else
      if ((r.dropWhile isJsSpace).takeWhile isWordChar).isEmpty then none
      else some ((r.dropWhile isJsSpace).takeWhile isWordChar)

/-- The optional `async` qualifier of the backward-scan function regex: when the
line starts with the literal `async` followed by at least one space, matching
continues after that whitespace; otherwise at the start (the regex cannot
backtrack into a different split because `def` starts with neither `a` nor a
space). -/
def dropAsync (stripped : List Char) : List Char :=
  match dropLit ("async".data) stripped with
  | none => stripped
  | some r =>
    match r.takeWhile isJsSpace with
    | [] => stripped
    | _ :: _ => r.dropWhile isJsSpace

/-- Capture of `def`, one or more spaces, then a run of one or more word
characters, shared tail of the backward-scan function regex. -/
def matchDefName (cs : List Char) : Option (List Char) :=
  match dropLit ("def".data) cs with
  | none => none
  | some r =>
    if (r.takeWhile isJsSpace).isEmpty then none
    else
      if ((r.dropWhile isJsSpace).takeWhile isWordChar).isEmpty then none
      else some ((r.dropWhile isJsSpace).takeWhile isWordChar)

/-- Capture of the backward-scan function regex (caret, optional `async` plus
spaces, `def`, spaces, captured word run). -/
def matchFuncCtx (stripped : List Char) : Option (List Char) :=
  matchDefName (dropAsync stripped)

/-- Capture of the forward-scan class regex (caret, optional leading whitespace,
`class`, spaces, an identifier starting with a letter or underscore followed by
word characters, then a word boundary) applied after removing the leading
whitespace the first group consumes.  The word boundary always holds after the
maximal word run, so it imposes no extra condition. -/
def matchClassFwd (stripped : List Char) : Option (List Char) :=
  match dropLit ("class".data) stripped with
  | none => none
  | some r =>
    if (r.takeWhile isJsSpace).isEmpty then none
    else
      match r.dropWhile isJsSpace with
      | [] => none
      | c :: rest =>
        if isAsciiLetter c || c = '_' then some (c :: rest.takeWhile isWordChar) else none

/-- Capture of the forward-scan test-method regex (caret, optional leading
whitespace, `def`, spaces, the literal `test_` then a run of word characters,
optional whitespace, an opening parenthesis) applied after removing the leading
whitespace. -/
def matchTestMethod (stripped : List Char) : Option (List Char) :=
  match dropLit ("def".data) stripped with
  | none => none
  | some r =>
    if (r.takeWhile isJsSpace).isEmpty then none
    else
      match dropLit ("test_".data) (r.dropWhile isJsSpace) with
      | none => none
      | some r2 =>
        if ((r2.dropWhile isWordChar).dropWhile isJsSpace).head? = some '(' then
          some (("test_".data) ++ r2.takeWhile isWordChar)
        else none

/-- Kind tag of a recognized definition line. -/
inductive CtxKind where
  | cls
  | func
deriving DecidableEq

/-- A scope marker recorded by the backward scan: name, indent width and kind. -/
structure Ctx where
  name : String
  indent : Nat
  kind : CtxKind
deriving DecidableEq

/-- A line with its leading whitespace removed (the JS trimStart; trailing
characters are untouched, which matches every use in the source because the
skip test and the anchored regexes only look at the front). -/
def strippedOf (s : String) : List Char :=
  s.data.dropWhile isJsSpace

/-- The indent width of a line: number of leading whitespace characters,
computed in the source as the length difference against the trimmed line. -/
def indentOf (s : String) : Nat :=
  s.data.length - (strippedOf s).length

/-- Classification of one line as done inside the loop of findContext: the
line's leading whitespace yields the indent, blank lines and lines whose first
non-space character is the comment marker are skipped, then the class pattern
is tried and, failing that, the function pattern. -/
def lineCtx (s : String) : Option Ctx :=
  if (strippedOf s).isEmpty || (strippedOf s).head? = some '#' then none
  else
    match matchClassCtx (strippedOf s) with
    | some w => some ⟨⟨w⟩, indentOf s, CtxKind.cls⟩
    | none =>
      match matchFuncCtx (strippedOf s) with
      | some w => some ⟨⟨w⟩, indentOf s, CtxKind.func⟩
      | none => none

/-- The contexts collected by the backward loop of findContext, in push order:
line `currentLine` is examined first, line 0 last. -/
def collectContexts (lines : List String) : Nat → List Ctx
  | 0 => (lineCtx (lines.getD 0 "")).toList
  | i + 1 => (lineCtx (lines.getD (i + 1) "")).toList ++ collectContexts lines i

/-- One insertion step of a stable ascending sort by indent: the new element
goes after every element of smaller or equal indent already present.  The JS
sort with comparator on indents is stable, and feeding elements in encounter
order through this insertion reproduces exactly a stable ascending sort. -/
def insertCtx (c : Ctx) : List Ctx → List Ctx
  | [] => [c]
  | d :: rest => if c.indent < d.indent then c :: d :: rest else d :: insertCtx c rest

/-- Stable ascending sort of the collected contexts by indent. -/
def sortCtxs (l : List Ctx) : List Ctx :=
  l.foldl (fun acc c => insertCtx c acc) []

/-- The relevant-context filter of findContext: walk the sorted list and keep a
marker exactly when its indent strictly exceeds the indent of the last kept
marker, the initial last indent being -1. -/
def relevantCtxs (lastIndent : Int) : List Ctx → List Ctx
  | [] => []
  | c :: rest =>
    if lastIndent < (c.indent : Int) then c :: relevantCtxs (c.indent : Int) rest
    else relevantCtxs lastIndent rest

/-- The markers kept by the relevant-context filter at a line, outermost first. -/
def keptMarkers (lines : List String) (currentLine : Nat) : List Ctx :=
  relevantCtxs (-1) (sortCtxs (collectContexts lines currentLine))

/-- The kept scope chain at a line: names of the kept markers, outermost first.
The source pushes the names directly while filtering; keeping whole markers and
projecting to names is the same computation. -/
def chainAt (lines : List String) (currentLine : Nat) : List String :=
  (keptMarkers lines currentLine).map Ctx.name

/-- Shallow embedding of findContext: collect markers backward from the target
line, return `none` when nothing matched, otherwise the kept chain joined with
dots. -/
def findContext (lines : List String) (currentLine : Nat) : Option String :=
  let contexts := collectContexts lines currentLine
  if contexts.isEmpty then none
  else some (String.intercalate "." (chainAt lines currentLine))

/-- Shallow embedding of getQualifiedName: the module path is supplied by the
caller (its derivation from the storage path is an external concern), and the
JS truthiness test on the returned context string also rejects the empty
string, not only the absent result. -/
def getQualifiedName (modulePath : String) (lines : List String) (currentLine : Nat) :
    Option String :=
  match findContext lines currentLine with
  | none => none
  | some context =>
    if context = "" then none else some (modulePath ++ "." ++ context)

/-! ### Forward batch scan (parseClassTestMethods) and test catalog -/

/-- A stack entry of the forward scan: an open class with its indent and line;
the head of the list is the top of the stack. -/
structure StackEntry where
  className : String
  indent : Nat
  classLine : Nat
deriving DecidableEq

/-- A catalog record of the forward scan: a class with the recognized test
methods attached to it, each a name paired with its line index. -/
structure ParsedClass where
  className : String
  classLine : Nat
  methods : List (String × Nat)
deriving DecidableEq

/-- State of the forward scan: catalog records in first-seen order and the
stack of currently open classes. -/
structure ScanState where
  classes : List ParsedClass
  stack : List StackEntry
deriving DecidableEq

/-- The while loop of the forward scan: pop stack entries whose indent is
greater than or equal to the current line's indent. -/
def popStack (indent : Nat) : List StackEntry → List StackEntry
  | [] => []
  | e :: rest => if indent ≤ e.indent then popStack indent rest else e :: rest

/-- Append a method record to the first catalog record with the given class
name and class line; the JS find returns the first matching record, which is
then mutated in place, and a missing record means no attachment. -/
def attachMethod (cn : String) (cl : Nat) (mn : String) (ml : Nat) :
    List ParsedClass → List ParsedClass
  | [] => []
  | c :: rest =>
    if c.className = cn ∧ c.classLine = cl then
      { c with methods := c.methods ++ [(mn, ml)] } :: rest
    else c :: attachMethod cn cl mn ml rest

/-- One iteration of the forward scan over an indexed line: skip blank and
comment lines, pop no-longer-enclosing classes, then either open a class,
or attach a test method to the top of the stack when the stack is non-empty
and the line is strictly deeper than that class. -/
def processLine (st : ScanState) (index : Nat) (rawLine : String) : ScanState :=
  if (strippedOf rawLine).isEmpty || (strippedOf rawLine).head? = some '#' then st
  else
    let indent := indentOf rawLine
    let stack1 := popStack indent st.stack
    match matchClassFwd (strippedOf rawLine) with
    | some w =>
      { classes := st.classes ++ [⟨⟨w⟩, index, []⟩],
        stack := ⟨⟨w⟩, indent, index⟩ :: stack1 }
    | none =>
      match matchTestMethod (strippedOf rawLine) with
      | none => { st with stack := stack1 }
      | some w =>
        match stack1 with
        | [] => { st with stack := stack1 }
        | top :: _ =>
          if indent ≤ top.indent then { st with stack := stack1 }
          else
            { classes := attachMethod top.className top.classLine ⟨w⟩ index st.classes,
              stack := stack1 }

/-- Run the forward scan over index-line pairs from a given state. -/
def scanLines (pairs : List (Nat × String)) (st : ScanState) : ScanState :=
  pairs.foldl (fun st p => processLine st p.1 p.2) st

/-- Shallow embedding of parseClassTestMethods: scan every line in order and
keep only the classes with at least one recognized test method. -/
def parseClassTestMethods (lines : List String) : List ParsedClass :=
  (scanLines lines.enum ⟨[], []⟩).classes.filter (fun c => !c.methods.isEmpty)

/-! ### Test item ids and the per-file tree -/

/-- Id of the file test item: the literal file kind tag and the document
identity string. -/
def fileIdOf (uriString : String) : String :=
  "file:" ++ uriString

/-- Id of a class test item: file id, class kind tag, name and definition line. -/
def classIdOf (fileId : String) (c : ParsedClass) : String :=
  fileId ++ ":class:" ++ c.className ++ ":" ++ toString c.classLine

/-- Id of a method test item: class id, method kind tag, name and definition line. -/
def methodIdOf (classId : String) (mn : String) (ml : Nat) : String :=
  classId ++ ":method:" ++ mn ++ ":" ++ toString ml

/-- A method leaf of the per-file test tree. -/
structure MethodNode where
  id : String
  displayName : String
  line : Nat
deriving DecidableEq

/-- A class node of the per-file test tree. -/
structure ClassNode where
  id : String
  displayName : String
  line : Nat
  methods : List MethodNode
deriving DecidableEq

/-- The file node of the per-file test tree. -/
structure FileNode where
  id : String
  displayName : String
  classes : List ClassNode
deriving DecidableEq

/-- Shallow embedding of the pure part of discoverDocumentTests: the tree of
test items built for one buffer; the file identity string and display name are
supplied by the caller (workspace lookup and the editor controller are
external collaborators).  Returns none exactly when the source registers no
file item: early when the parse yields nothing, and again when no method set
the hasTests flag. -/
def buildFileNode (uriString fileName : String) (lines : List String) : Option FileNode :=
  let parsed := parseClassTestMethods lines
  if parsed.isEmpty then none
  else
    let fid := fileIdOf uriString
    let classNodes := parsed.map (fun c =>
      { id := classIdOf fid c, displayName := c.className, line := c.classLine,
        methods := c.methods.map (fun m =>
          { id := methodIdOf (classIdOf fid c) m.1 m.2, displayName := m.1,
            line := m.2 : MethodNode }) : ClassNode })
    let hasTests := parsed.any (fun c => !c.methods.isEmpty)
    if hasTests then some { id := fid, displayName := fileName, classes := classNodes }
    else none

/-- Every id occurring in a per-file tree, file first, then per class the
class id followed by its method ids. -/
def fileNodeIds (t : FileNode) : List String :=
  t.id :: t.classes.flatMap (fun c => c.id :: c.methods.map MethodNode.id)

/-- All ids produced by one catalog rebuild of one buffer; empty when no tree
is built. -/
def allNodeIds (uriString fileName : String) (lines : List String) : List String :=
  match buildFileNode uriString fileName lines with
  | none => []
  | some t => fileNodeIds t

/-- Modelled from the spec: the claimed recognition contract of the class
definition pattern — leading `class`, one or more spaces, then an identifier
beginning with a letter or underscore (its word-character continuation and the
closing word boundary never restrict recognition further). -/
def specClassRecognition (cs : List Char) : Bool :=
  ("class".data.isPrefixOf cs)
    && !((cs.drop 5).takeWhile isJsSpace).isEmpty
    && (match (cs.drop 5).dropWhile isJsSpace with
        | c :: _ => isAsciiLetter c || c = '_'
        | [] => false)

/-- Modelled from the spec: the claimed recognition contract of the
test-method pattern — optional leading `async` plus spaces, then `def`,
spaces, an identifier made of the literal `test_` and word characters,
immediately followed by an opening parenthesis. -/
def specTestMethodRecognition (cs : List Char) : Bool :=
  ("def".data.isPrefixOf (dropAsync cs))
    && !(((dropAsync cs).drop 3).takeWhile isJsSpace).isEmpty
    && (("test_".data.isPrefixOf (((dropAsync cs).drop 3).dropWhile isJsSpace))
        && decide (((((((dropAsync cs).drop 3).dropWhile isJsSpace).drop 5)).dropWhile
            isWordChar).head? = some '('))

/-- Modelled from the spec as amended: recognition contract of the
test-method pattern actually implemented — no `async` qualifier is accepted,
and optional whitespace is permitted between the identifier and the opening
parenthesis. -/
def amendedTestMethodRecognition (cs : List Char) : Bool :=
  ("def".data.isPrefixOf cs)
    && !((cs.drop 3).takeWhile isJsSpace).isEmpty
    && (("test_".data.isPrefixOf ((cs.drop 3).dropWhile isJsSpace))
        && decide ((((((cs.drop 3).dropWhile isJsSpace).drop 5).dropWhile
            isWordChar).dropWhile isJsSpace).head? = some '('))

/-- The stack is strictly decreasing in indent from its top (the head). -/
def stackDesc (s : List StackEntry) : Prop :=
  s.Pairwise (fun a b => b.indent < a.indent)

/-- A stack entry is coherent with the buffer at scan position k: its line has
already been scanned and it records exactly that line's indent. -/
def entryOk (lines : List String) (k : Nat) (e : StackEntry) : Prop :=
  e.classLine < k ∧ indentOf (lines.getD e.classLine "") = e.indent

/-- A catalog record is coherent at scan position k: its class line has been
scanned and every attached method lies on a scanned line strictly deeper than
the class line. -/
def classOk (lines : List String) (k : Nat) (c : ParsedClass) : Prop :=
  c.classLine < k ∧ ∀ m ∈ c.methods,
    m.2 < k ∧ indentOf (lines.getD c.classLine "") < indentOf (lines.getD m.2 "")

/-- Full invariant of the forward scan after consuming lines 0..k-1. -/
def stateOk (lines : List String) (k : Nat) (st : ScanState) : Prop :=
  stackDesc st.stack
    ∧ (∀ e ∈ st.stack, entryOk lines k e)
    ∧ (∀ c ∈ st.classes, classOk lines k c)
    ∧ (st.classes.map ParsedClass.classLine).Pairwise (· < ·)
    ∧ ∀ c ∈ st.classes, (c.methods.map Prod.snd).Pairwise (· < ·)

/-- Big-endian decimal digit characters of a natural number; the fuel-free
counterpart of the core rendering used by toString. -/
def decDigits (n : Nat) : List Char :=
  if h : n < 10 then [Nat.digitChar n]
  else decDigits (n / 10) ++ [Nat.digitChar (n % 10)]
decreasing_by exact Nat.div_lt_self (by omega) (by omega)

/-- Decimal value of a digit character. -/
def digitVal (c : Char) : Nat := c.toNat - 48

/-- No character of the list is the id separator. -/
def colonFree (l : List Char) : Prop := ∀ ch ∈ l, ch ≠ ':'

/-- Every character of the list is a word character. -/
def wordOnly (l : List Char) : Prop := ∀ ch ∈ l, isWordChar ch = true

/-- All catalog names produced so far consist of word characters. -/
def namesWordOnly (st : ScanState) : Prop :=
  ∀ c ∈ st.classes, wordOnly c.className.data ∧ ∀ m ∈ c.methods, wordOnly m.1.data

/-! ### Lemmas about the relevant-context filter -/

theorem relevantCtxs_mem_gt (l : List Ctx) :
    ∀ (last : Int) (c : Ctx), c ∈ relevantCtxs last l → last < (c.indent : Int) := by
  induction l with
  | nil => intro last c h; simp [relevantCtxs] at h
  | cons d rest ih =>
    intro last c h
    unfold relevantCtxs at h
    by_cases hd : last < (d.indent : Int)
    · rw [if_pos hd] at h
      rcases List.mem_cons.mp h with h1 | h2
      · exact h1 ▸ hd
      · exact lt_trans hd (ih _ c h2)
    · rw [if_neg hd] at h
      exact ih _ c h

theorem relevantCtxs_pairwise (l : List Ctx) :
    ∀ last : Int, (relevantCtxs last l).Pairwise (fun a b => a.indent < b.indent) := by
  induction l with
  | nil => intro last; simp [relevantCtxs]
  | cons d rest ih =>
    intro last
    unfold relevantCtxs
    by_cases hd : last < (d.indent : Int)
    · rw [if_pos hd]
      refine List.pairwise_cons.mpr ⟨?_, ih _⟩
      intro c hc
      exact_mod_cast relevantCtxs_mem_gt rest _ c hc
    · rw [if_neg hd]
      exact ih _

theorem relevantCtxs_subset (l : List Ctx) :
    ∀ (last : Int) (c : Ctx), c ∈ relevantCtxs last l → c ∈ l := by
  induction l with
  | nil => intro last c h; simp [relevantCtxs] at h
  | cons d rest ih =>
    intro last c h
    unfold relevantCtxs at h
    by_cases hd : last < (d.indent : Int)
    · rw [if_pos hd] at h
      rcases List.mem_cons.mp h with h1 | h2
      · exact h1 ▸ List.mem_cons_self d rest
      · exact List.mem_cons_of_mem d (ih _ c h2)
    · rw [if_neg hd] at h
      exact List.mem_cons_of_mem d (ih _ c h)

theorem relevantCtxs_ne_nil (c : Ctx) (rest : List Ctx) :
    relevantCtxs (-1) (c :: rest) ≠ [] := by
  unfold relevantCtxs
  rw [if_pos (by omega)]
  simp

/-! ### Lemmas about the stable insertion sort -/

theorem insertCtx_length (c : Ctx) (l : List Ctx) :
    (insertCtx c l).length = l.length + 1 := by
  induction l with
  | nil => rfl
  | cons d rest ih =>
    unfold insertCtx
    by_cases h : c.indent < d.indent
    · rw [if_pos h]; rfl
    · rw [if_neg h]; simp [ih]

theorem insertCtx_mem (c e : Ctx) (l : List Ctx) :
    e ∈ insertCtx c l ↔ e = c ∨ e ∈ l := by
  induction l with
  | nil => simp [insertCtx]
  | cons d rest ih =>
    unfold insertCtx
    by_cases h : c.indent < d.indent
    · rw [if_pos h]; simp only [List.mem_cons]
    · rw [if_neg h]; simp only [List.mem_cons, ih]
      tauto

theorem sortCtxs_length (l : List Ctx) : (sortCtxs l).length = l.length := by
  suffices h : ∀ acc : List Ctx,
      (l.foldl (fun acc c => insertCtx c acc) acc).length = acc.length + l.length by
    simpa using h []
  induction l with
  | nil => intro acc; simp
  | cons d rest ih =>
    intro acc
    simp only [List.foldl_cons, ih, insertCtx_length, List.length_cons]
    omega

theorem sortCtxs_mem (l : List Ctx) (e : Ctx) : e ∈ sortCtxs l ↔ e ∈ l := by
  suffices h : ∀ acc : List Ctx,
      e ∈ l.foldl (fun acc c => insertCtx c acc) acc ↔ e ∈ acc ∨ e ∈ l by
    have h2 := h []
    simpa [sortCtxs] using h2
  induction l with
  | nil => intro acc; simp
  | cons d rest ih =>
    intro acc
    simp only [List.foldl_cons, ih, insertCtx_mem, List.mem_cons]
    tauto

/-! ### Lemmas about line classification and collection -/

theorem matchClassCtx_ne_nil {cs w : List Char} (h : matchClassCtx cs = some w) :
    w ≠ [] := by
  unfold matchClassCtx at h
  split at h
  · simp at h
  · split at h
    · simp at h
    · split at h
      · simp at h
      · rename_i hw
        rw [Option.some_inj] at h
        subst h
        simpa [List.isEmpty_iff] using hw

theorem matchDefName_ne_nil {cs w : List Char} (h : matchDefName cs = some w) :
    w ≠ [] := by
  unfold matchDefName at h
  split at h
  · simp at h
  · split at h
    · simp at h
    · split at h
      · simp at h
      · rename_i hw
        rw [Option.some_inj] at h
        subst h
        simpa [List.isEmpty_iff] using hw

theorem lineCtx_name_ne {s : String} {c : Ctx} (h : lineCtx s = some c) :
    c.name ≠ "" := by
  unfold lineCtx at h
  split at h
  · simp at h
  · split at h
    · rename_i w hw
      rw [Option.some_inj] at h
      subst h
      simp only [ne_eq]
      intro hcon
      exact matchClassCtx_ne_nil hw (congrArg String.data hcon)
    · split at h
      · rename_i w hw
        rw [Option.some_inj] at h
        subst h
        simp only [ne_eq]
        intro hcon
        exact matchDefName_ne_nil hw (congrArg String.data hcon)
      · simp at h

theorem matchClassCtx_nil : matchClassCtx [] = none := rfl

theorem matchFuncCtx_nil : matchFuncCtx [] = none := rfl

theorem matchClassCtx_hash (r : List Char) : matchClassCtx ('#' :: r) = none := rfl

theorem matchFuncCtx_hash (r : List Char) : matchFuncCtx ('#' :: r) = none := rfl

/-- A blank or comment-initial trimmed line matches neither definition pattern. -/
theorem skip_matchers_none {cs : List Char}
    (h : cs = [] ∨ cs.head? = some '#') :
    matchClassCtx cs = none ∧ matchFuncCtx cs = none := by
  rcases h with rfl | h2
  · exact ⟨matchClassCtx_nil, matchFuncCtx_nil⟩
  · rcases cs with _ | ⟨c0, r⟩
    · exact ⟨matchClassCtx_nil, matchFuncCtx_nil⟩
    · simp only [List.head?_cons, Option.some_inj] at h2
      subst h2
      exact ⟨matchClassCtx_hash r, matchFuncCtx_hash r⟩

/-- The skip test of findContext is redundant for matching: a blank or comment
line cannot match either definition pattern, so a line yields a marker exactly
when one of the two patterns matches its trimmed form. -/
theorem lineCtx_eq_none_iff (s : String) :
    lineCtx s = none ↔
      matchClassCtx (strippedOf s) = none ∧ matchFuncCtx (strippedOf s) = none := by
  unfold lineCtx
  by_cases hskip : ((strippedOf s).isEmpty || (strippedOf s).head? = some '#') = true
  · rw [if_pos hskip]
    have hd : strippedOf s = [] ∨ (strippedOf s).head? = some '#' := by
      rcases Bool.or_eq_true_iff.mp hskip with h1 | h2
      · exact Or.inl (by simpa [List.isEmpty_iff] using h1)
      · exact Or.inr (of_decide_eq_true h2)
    simp [skip_matchers_none hd]
  · rw [if_neg hskip]
    rcases hc : matchClassCtx (strippedOf s) with _ | w
    · rcases hf : matchFuncCtx (strippedOf s) with _ | w
      · simp
      · simp
    · simp

theorem optToList_eq_nil {α : Type} (o : Option α) : o.toList = [] ↔ o = none := by
  cases o <;> simp [Option.toList]

theorem collectContexts_eq_nil_iff (lines : List String) (l : Nat) :
    collectContexts lines l = [] ↔
      ∀ i : Nat, i ≤ l → lineCtx (lines.getD i "") = none := by
  induction l with
  | zero =>
    simp only [collectContexts, optToList_eq_nil]
    constructor
    · intro h i hi
      interval_cases i
      exact h
    · intro h
      exact h 0 (le_refl 0)
  | succ l ih =>
    simp only [collectContexts, List.append_eq_nil, optToList_eq_nil, ih]
    constructor
    · rintro ⟨h1, h2⟩ i hi
      rcases Nat.lt_or_ge i (l + 1) with hlt | hge
      · exact h2 i (Nat.lt_succ_iff.mp hlt)
      · have : i = l + 1 := le_antisymm hi hge
        exact this ▸ h1
    · intro h
      exact ⟨h (l + 1) (le_refl _), fun i hi => h i (Nat.le_succ_of_le hi)⟩

theorem collectContexts_congr (lines1 lines2 : List String) (l : Nat)
    (h : ∀ i : Nat, i ≤ l → lines1.getD i "" = lines2.getD i "") :
    collectContexts lines1 l = collectContexts lines2 l := by
  induction l with
  | zero =>
    simp only [collectContexts]
    rw [h 0 (le_refl 0)]
  | succ l ih =>
    simp only [collectContexts]
    rw [h (l + 1) (le_refl _), ih (fun i hi => h i (Nat.le_succ_of_le hi))]

theorem collectContexts_mem (lines : List String) (l : Nat) (c : Ctx)
    (h : c ∈ collectContexts lines l) :
    ∃ i : Nat, i ≤ l ∧ lineCtx (lines.getD i "") = some c := by
  induction l with
  | zero =>
    simp only [collectContexts, Option.mem_toList, Option.mem_def] at h
    exact ⟨0, le_refl 0, h⟩
  | succ l ih =>
    simp only [collectContexts, List.mem_append, Option.mem_toList, Option.mem_def] at h
    rcases h with h1 | h2
    · exact ⟨l + 1, le_refl _, h1⟩
    · rcases ih h2 with ⟨i, hi, hc⟩
      exact ⟨i, Nat.le_succ_of_le hi, hc⟩

/-! ### Lemmas about the dotted join -/

theorem intercalate_go_head (s : String) (as : List String) :
    ∀ acc : String, ∃ t : String, String.intercalate.go acc s as = acc ++ t := by
  induction as with
  | nil =>
    intro acc
    exact ⟨"", by simp [String.intercalate.go]⟩
  | cons a as ih =>
    intro acc
    rcases ih (acc ++ s ++ a) with ⟨t, ht⟩
    refine ⟨s ++ a ++ t, ?_⟩
    show String.intercalate.go (acc ++ s ++ a) s as = _
    rw [ht]
    simp [String.append_assoc]

theorem intercalate_head (a : String) (as : List String) :
    ∃ t : String, String.intercalate "." (a :: as) = a ++ t := by
  simpa [String.intercalate] using intercalate_go_head "." as a

theorem data_ne_nil_of_ne_empty {s : String} (h : s ≠ "") : s.data ≠ [] := by
  intro hd
  exact h (by cases s; simp_all)

/-! ### Qualified-name characterizations -/

theorem findContext_none_iff (lines : List String) (l : Nat) :
    findContext lines l = none ↔ collectContexts lines l = [] := by
  unfold findContext
  by_cases h : (collectContexts lines l).isEmpty = true
  · rw [if_pos h]
    simpa [List.isEmpty_iff] using h
  · rw [if_neg h]
    simp only [reduceCtorEq, false_iff]
    simpa [List.isEmpty_iff] using h

theorem findContext_some (lines : List String) (l : Nat)
    (h : collectContexts lines l ≠ []) :
    findContext lines l = some (String.intercalate "." (chainAt lines l)) := by
  unfold findContext
  rw [if_neg (by simpa [List.isEmpty_iff] using h)]

theorem chainAt_ne_nil (lines : List String) (l : Nat)
    (h : collectContexts lines l ≠ []) : chainAt lines l ≠ [] := by
  unfold chainAt keptMarkers
  rcases hs : sortCtxs (collectContexts lines l) with _ | ⟨c, rest⟩
  · have := sortCtxs_length (collectContexts lines l)
    rw [hs] at this
    exact absurd (List.length_eq_zero.mp this.symm) h
  · have := relevantCtxs_ne_nil c rest
    simp only [ne_eq, List.map_eq_nil_iff]
    exact this

theorem chainAt_head_ne_empty (lines : List String) (l : Nat) (a : String)
    (rest : List String) (h : chainAt lines l = a :: rest) : a ≠ "" := by
  have ha : a ∈ chainAt lines l := h ▸ List.mem_cons_self a rest
  unfold chainAt at ha
  rcases List.mem_map.mp ha with ⟨c, hc, hname⟩
  have hc2 : c ∈ sortCtxs (collectContexts lines l) :=
    relevantCtxs_subset _ _ _ hc
  have hc3 : c ∈ collectContexts lines l := (sortCtxs_mem _ _).mp hc2
  rcases collectContexts_mem lines l c hc3 with ⟨i, _, hline⟩
  exact hname ▸ lineCtx_name_ne hline

theorem joined_chain_ne_empty (lines : List String) (l : Nat)
    (h : collectContexts lines l ≠ []) :
    String.intercalate "." (chainAt lines l) ≠ "" := by
  rcases hch : chainAt lines l with _ | ⟨a, rest⟩
  · exact absurd hch (chainAt_ne_nil lines l h)
  · rcases intercalate_head a rest with ⟨t, ht⟩
    rw [ht]
    intro hcon
    have hd := congrArg String.data hcon
    rw [String.data_append] at hd
    exact data_ne_nil_of_ne_empty (chainAt_head_ne_empty lines l a rest hch)
      (List.append_eq_nil.mp hd).1

theorem getQualifiedName_none_iff (mp : String) (lines : List String) (l : Nat) :
    getQualifiedName mp lines l = none ↔ collectContexts lines l = [] := by
  unfold getQualifiedName
  constructor
  · intro h
    by_contra hne
    rw [findContext_some lines l hne] at h
    dsimp only at h
    rw [if_neg (joined_chain_ne_empty lines l hne)] at h
    exact absurd h (by simp)
  · intro h
    rw [(findContext_none_iff lines l).mpr h]

theorem getQualifiedName_some_inv {mp : String} {lines : List String} {l : Nat}
    {s : String} (h : getQualifiedName mp lines l = some s) :
    collectContexts lines l ≠ [] ∧
      s = mp ++ "." ++ String.intercalate "." (chainAt lines l) := by
  have hne : collectContexts lines l ≠ [] := by
    intro hnil
    rw [(getQualifiedName_none_iff mp lines l).mpr hnil] at h
    exact absurd h (by simp)
  refine ⟨hne, ?_⟩
  unfold getQualifiedName at h
  rw [findContext_some lines l hne] at h
  dsimp only at h
  rw [if_neg (joined_chain_ne_empty lines l hne)] at h
  exact (Option.some_inj.mp h).symm

/-! ### Claim theorems for the backward scan and the qualified path builder -/

/-- C1: for every buffer and every valid target line index, the markers kept by
the backward scan (findContext) have strictly increasing indent widths,
outermost first: no two kept markers share an indent and no kept marker has an
indent less than or equal to an earlier kept one. -/
theorem chain_indents_strictly_increasing (lines : List String) (l : Nat)
    (h : l < lines.length) :
    ((keptMarkers lines l).map Ctx.indent).Pairwise (· < ·) := by
  unfold keptMarkers
  exact List.pairwise_map.mpr (relevantCtxs_pairwise (sortCtxs (collectContexts lines l)) (-1))

/-- Witness for C1 at a concrete buffer and line. -/
theorem chain_indents_strictly_increasing_witness :
    ((keptMarkers ["class A:", "    def f(self):", "        pass", "x = 1"] 3).map
      Ctx.indent).Pairwise (· < ·) :=
  chain_indents_strictly_increasing ["class A:", "    def f(self):", "        pass", "x = 1"]
    3 (by decide)

/-- C2: qualified-name resolution returns an absent result exactly when no line
at or above the cursor matches the class or the function definition pattern;
when the chain is non-empty it returns exactly the module path, a dot and the
chain joined with dots; and a present result is never the bare module path nor
the result of an empty chain. -/
theorem qualifiedName_absence_and_shape (mp : String) (lines : List String) (l : Nat)
    (h : l < lines.length) :
    (getQualifiedName mp lines l = none ↔
      ∀ i : Nat, i ≤ l →
        matchClassCtx (strippedOf (lines.getD i "")) = none ∧
          matchFuncCtx (strippedOf (lines.getD i "")) = none)
    ∧ (chainAt lines l ≠ [] →
        getQualifiedName mp lines l =
          some (mp ++ "." ++ String.intercalate "." (chainAt lines l)))
    ∧ (∀ s : String, getQualifiedName mp lines l = some s →
        s ≠ mp ∧ chainAt lines l ≠ []) := by
  refine ⟨?_, ?_, ?_⟩
  · rw [getQualifiedName_none_iff, collectContexts_eq_nil_iff]
    constructor
    · intro hall i hi
      exact (lineCtx_eq_none_iff _).mp (hall i hi)
    · intro hall i hi
      exact (lineCtx_eq_none_iff _).mpr (hall i hi)
  · intro hch
    have hne : collectContexts lines l ≠ [] := by
      intro hnil
      apply hch
      unfold chainAt keptMarkers
      rw [hnil]
      rfl
    unfold getQualifiedName
    rw [findContext_some lines l hne]
    dsimp only
    rw [if_neg (joined_chain_ne_empty lines l hne)]
  · intro s hs
    rcases getQualifiedName_some_inv hs with ⟨hne, hshape⟩
    refine ⟨?_, chainAt_ne_nil lines l hne⟩
    intro hcon
    have hlen := congrArg String.length (hcon ▸ hshape)
    rw [String.length_append, String.length_append] at hlen
    have hdot : ("." : String).length = 1 := rfl
    omega

/-- Witness for C2 at the concrete blank-line example: a cursor on a blank
line in a file with no enclosing definitions yields an absent result. -/
theorem qualifiedName_absence_and_shape_witness :
    getQualifiedName "m" ["", "x = 1"] 0 = none := by
  have h := (qualifiedName_absence_and_shape "m" ["", "x = 1"] 0 (by decide)).1
  apply h.mpr
  intro i hi
  interval_cases i
  exact ⟨by decide, by decide⟩

/-- C7: the backward scan is deterministic and depends only on the lines at
indices 0 through the target line: two buffers agreeing on that segment give
the same findContext result, whatever follows the target line. -/
theorem findContext_depends_only_on_prefix (lines1 lines2 : List String) (l : Nat)
    (h1 : l < lines1.length) (h2 : l < lines2.length)
    (hagree : lines1.take (l + 1) = lines2.take (l + 1)) :
    findContext lines1 l = findContext lines2 l := by
  have hgetD : ∀ i : Nat, i ≤ l → lines1.getD i "" = lines2.getD i "" := by
    intro i hi
    have hq : lines1[i]? = lines2[i]? := by
      have e1 : (lines1.take (l + 1))[i]? = lines1[i]? := by
        rw [List.getElem?_take]
        exact if_pos (by omega)
      have e2 : (lines2.take (l + 1))[i]? = lines2[i]? := by
        rw [List.getElem?_take]
        exact if_pos (by omega)
      rw [← e1, hagree, e2]
    simp only [List.getD_eq_getElem?_getD, hq]
  have hcol := collectContexts_congr lines1 lines2 l hgetD
  unfold findContext chainAt keptMarkers
  rw [hcol]

/-- Witness for C7 at concrete buffers differing after the target line. -/
theorem findContext_depends_only_on_prefix_witness :
    findContext ["class A:", "    def f(self):"] 1 =
      findContext ["class A:", "    def f(self):", "IGNORED LINE"] 1 :=
  findContext_depends_only_on_prefix ["class A:", "    def f(self):"]
    ["class A:", "    def f(self):", "IGNORED LINE"] 1 (by decide) (by decide) (by decide)

/-- C8: round trip of the qualified path builder: when resolution succeeds,
stripping the module-path prefix and the following dot from the result yields
exactly the dotted join of the scope chain findContext produced. -/
theorem qualifiedName_roundTrip (mp : String) (lines : List String) (l : Nat)
    (s : String) (h : getQualifiedName mp lines l = some s) :
    s.data.drop (mp.length + 1) = (String.intercalate "." (chainAt lines l)).data := by
  rcases getQualifiedName_some_inv h with ⟨-, hshape⟩
  subst hshape
  rw [String.data_append, String.data_append]
  have hlen : mp.length + 1 = (mp.data ++ ("." : String).data).length := by
    rw [List.length_append]
    rfl
  rw [hlen]
  exact List.drop_left _ _

/-- Witness for C8 at a concrete buffer. -/
theorem qualifiedName_roundTrip_witness :
    ("m.f" : String).data.drop (("m" : String).length + 1) =
      (String.intercalate "." (chainAt ["def f():"] 0)).data :=
  qualifiedName_roundTrip "m" ["def f():"] 0 "m.f" (by decide)

/-- C10: the backward scan never compares the target line's own indentation
with the collected markers, so on this buffer, with the target on the
unindented line after a class body, it returns the chain A.f rather than an
absent result. -/
theorem findContext_ignores_target_indent :
    findContext ["class A:", "    def f(self):", "        pass", "x = 1"] 3 =
        some "A.f"
    ∧ chainAt ["class A:", "    def f(self):", "        pass", "x = 1"] 3 = ["A", "f"] := by
  constructor
  · decide
  · decide

/-! ### Pattern recognition contracts (claims C3, C4) -/

theorem dropLit_eq_some {ps cs r : List Char} :
    dropLit ps cs = some r ↔ cs = ps ++ r := by
  induction ps generalizing cs with
  | nil => simp [dropLit]
  | cons p ps ih =>
    rcases cs with _ | ⟨c, cs⟩
    · simp [dropLit]
    · by_cases hc : c = p
      · subst hc
        simp [dropLit, ih]
      · simp [dropLit, hc, Ne.symm hc]

theorem isPrefixOf_false_of_dropLit_none {ps cs : List Char}
    (hd : dropLit ps cs = none) : ps.isPrefixOf cs = false := by
  rw [Bool.eq_false_iff]
  intro hcon
  rcases List.isPrefixOf_iff_prefix.mp hcon with ⟨t, ht⟩
  rw [dropLit_eq_some.mpr ht.symm] at hd
  exact absurd hd (by simp)

theorem isPrefixOf_append_true (ps r : List Char) :
    ps.isPrefixOf (ps ++ r) = true :=
  List.isPrefixOf_iff_prefix.mpr ⟨r, rfl⟩

theorem isWordChar_of_first (c : Char) (h : (isAsciiLetter c || c = '_') = true) :
    isWordChar c = true := by
  unfold isAsciiLetter at h
  unfold isWordChar
  rcases Bool.or_eq_true_iff.mp h with h1 | h2
  · rcases Bool.or_eq_true_iff.mp h1 with h3 | h4
    · simp [h3]
    · simp [h4]
  · simp [h2]

/-- C3 counterexample: a token after `class` that starts with a digit is
recognized by the backward chain scan (with the digit-led token as the name)
even though the forward scan rejects it, contradicting the claim that neither
scan recognizes such a line. -/
theorem classPattern_digit_counterexample :
    matchClassFwd (("class 3foo").data) = none
    ∧ matchClassCtx (("class 3foo").data) = some ("3foo".data)
    ∧ lineCtx "class 3foo" = some ⟨"3foo", 0, CtxKind.cls⟩
    ∧ findContext ["class 3foo"] 0 = some "3foo" :=
  ⟨by decide, by decide, by decide, by decide⟩

/-- C3 as amended: the forward scan recognizes a class definition exactly
according to the letter-or-underscore contract; the backward scan is strictly
more permissive: it recognizes every line the forward scan does, with the same
captured name, and also lines whose token after `class` starts with a digit. -/
theorem classPattern_amended :
    (∀ cs : List Char, (matchClassFwd cs).isSome = specClassRecognition cs)
    ∧ (∀ cs w : List Char, matchClassFwd cs = some w → matchClassCtx cs = some w)
    ∧ ((matchClassCtx ("class 3foo".data)).isSome = true
        ∧ (matchClassFwd ("class 3foo".data)).isSome = false) := by
  refine ⟨?_, ?_, by decide, by decide⟩
  · intro cs
    rcases hd : dropLit ("class".data) cs with _ | r
    · unfold matchClassFwd specClassRecognition
      rw [hd, isPrefixOf_false_of_dropLit_none hd]
      rfl
    · have hcs : cs = "class".data ++ r := dropLit_eq_some.mp hd
      subst hcs
      unfold matchClassFwd specClassRecognition
      rw [hd]
      have hdrop : (("class".data ++ r).drop 5) = r := List.drop_left' rfl
      rw [hdrop, isPrefixOf_append_true]
      dsimp only
      by_cases hsp : (r.takeWhile isJsSpace).isEmpty = true
      · rw [if_pos hsp, hsp]
        rfl
      · rw [if_neg hsp, Bool.eq_false_iff.mpr hsp]
        rcases hr1 : r.dropWhile isJsSpace with _ | ⟨c, rest⟩
        · rfl
        · dsimp only
          by_cases hlet : (isAsciiLetter c || c = '_') = true
          · rw [if_pos hlet]
            rw [hlet]
            rfl
          · rw [if_neg hlet, Bool.eq_false_iff.mpr hlet]
            rfl
  · intro cs w h
    unfold matchClassFwd at h
    rcases hd : dropLit ("class".data) cs with _ | r
    · rw [hd] at h
      exact absurd h (by simp)
    · rw [hd] at h
      dsimp only at h
      by_cases hsp : (r.takeWhile isJsSpace).isEmpty = true
      · rw [if_pos hsp] at h
        exact absurd h (by simp)
      · rw [if_neg hsp] at h
        rcases hr1 : r.dropWhile isJsSpace with _ | ⟨c, rest⟩
        · rw [hr1] at h
          exact absurd h (by simp)
        · rw [hr1] at h
          dsimp only at h
          by_cases hlet : (isAsciiLetter c || c = '_') = true
          · rw [if_pos hlet, Option.some_inj] at h
            have hword := isWordChar_of_first c hlet
            unfold matchClassCtx
            rw [hd]
            dsimp only
            rw [if_neg hsp, hr1, List.takeWhile_cons_of_pos hword]
            rw [if_neg (by simp)]
            rw [h]
          · rw [if_neg hlet] at h
            exact absurd h (by simp)

/-- Witness for the implication part of the amended C3 theorem at a concrete
line recognized by both scans with the same name. -/
theorem classPattern_amended_witness :
    matchClassCtx ("class Foo:".data) = some ("Foo".data) :=
  classPattern_amended.2.1 ("class Foo:".data) ("Foo".data) (by decide)

/-- C4 counterexample: `async def test_x(self):` satisfies the claimed
contract but is not recognized by the scan, while `def test_y (self):` has
whitespace before the parenthesis, violates the claimed contract, and is
recognized anyway. -/
theorem testMethodPattern_counterexample :
    specTestMethodRecognition ("async def test_x(self):".data) = true
    ∧ matchTestMethod ("async def test_x(self):".data) = none
    ∧ specTestMethodRecognition ("def test_y (self):".data) = false
    ∧ matchTestMethod ("def test_y (self):".data) = some ("test_y".data) :=
  ⟨by decide, by decide, by decide, by decide⟩

/-- C4 as amended: a line is recognized as a test-method definition exactly
when, after the leading whitespace, it has `def`, spaces, an identifier
`test_` plus word characters, then optional whitespace and an opening
parenthesis; the async qualifier is not accepted. -/
theorem testMethodPattern_amended (cs : List Char) :
    (matchTestMethod cs).isSome = amendedTestMethodRecognition cs := by
  rcases hd : dropLit ("def".data) cs with _ | r
  · unfold matchTestMethod amendedTestMethodRecognition
    rw [hd, isPrefixOf_false_of_dropLit_none hd]
    rfl
  · have hcs : cs = "def".data ++ r := dropLit_eq_some.mp hd
    subst hcs
    unfold matchTestMethod amendedTestMethodRecognition
    rw [hd]
    have hdrop : (("def".data ++ r).drop 3) = r := List.drop_left' rfl
    rw [hdrop, isPrefixOf_append_true]
    dsimp only
    by_cases hsp : (r.takeWhile isJsSpace).isEmpty = true
    · rw [if_pos hsp, hsp]
      rfl
    · rw [if_neg hsp, Bool.eq_false_iff.mpr hsp]
      rcases ht : dropLit ("test_".data) (r.dropWhile isJsSpace) with _ | r2
      · rw [isPrefixOf_false_of_dropLit_none ht]
        rfl
      · have hr2 : r.dropWhile isJsSpace = "test_".data ++ r2 := dropLit_eq_some.mp ht
        rw [hr2, isPrefixOf_append_true]
        have hdrop5 : (("test_".data ++ r2).drop 5) = r2 := List.drop_left' rfl
        rw [hdrop5]
        dsimp only
        by_cases hpar : ((r2.dropWhile isWordChar).dropWhile isJsSpace).head? = some '('
        · rw [if_pos hpar]
          simp [hpar]
        · rw [if_neg hpar]
          simp [hpar]

/-! ### Invariants of the forward scan -/

theorem popStack_sub (i : Nat) (s : List StackEntry) :
    ∀ e ∈ popStack i s, e ∈ s := by
  induction s with
  | nil => intro e h; simp [popStack] at h
  | cons d rest ih =>
    intro e h
    unfold popStack at h
    by_cases hd : i ≤ d.indent
    · rw [if_pos hd] at h
      exact List.mem_cons_of_mem d (ih e h)
    · rw [if_neg hd] at h
      exact h

theorem popStack_desc {i : Nat} {s : List StackEntry} (hs : stackDesc s) :
    stackDesc (popStack i s) := by
  induction s with
  | nil => simpa [popStack] using hs
  | cons d rest ih =>
    unfold popStack
    by_cases hd : i ≤ d.indent
    · rw [if_pos hd]
      exact ih (List.pairwise_cons.mp hs).2
    · rw [if_neg hd]
      exact hs

/-- Complete popping: after the while loop, every surviving stack entry has
indent strictly below the current line's indent (for the well-formed stacks
the scan actually builds). -/
theorem popStack_lt {i : Nat} {s : List StackEntry} (hs : stackDesc s) :
    ∀ e ∈ popStack i s, e.indent < i := by
  induction s with
  | nil => intro e h; simp [popStack] at h
  | cons d rest ih =>
    intro e h
    unfold popStack at h
    by_cases hd : i ≤ d.indent
    · rw [if_pos hd] at h
      exact ih (List.pairwise_cons.mp hs).2 e h
    · rw [if_neg hd] at h
      rcases List.mem_cons.mp h with rfl | hmem
      · omega
      · have := (List.pairwise_cons.mp hs).1 e hmem
        omega

theorem entryOk_mono {lines : List String} {k k2 : Nat} {e : StackEntry}
    (hk : k ≤ k2) (h : entryOk lines k e) : entryOk lines k2 e :=
  ⟨lt_of_lt_of_le h.1 hk, h.2⟩

theorem classOk_mono {lines : List String} {k k2 : Nat} {c : ParsedClass}
    (hk : k ≤ k2) (h : classOk lines k c) : classOk lines k2 c :=
  ⟨lt_of_lt_of_le h.1 hk, fun m hm => ⟨lt_of_lt_of_le (h.2 m hm).1 hk, (h.2 m hm).2⟩⟩

theorem stateOk_mono {lines : List String} {k k2 : Nat} {st : ScanState}
    (hk : k ≤ k2) (h : stateOk lines k st) : stateOk lines k2 st :=
  ⟨h.1, fun e he => entryOk_mono hk (h.2.1 e he),
    fun c hc => classOk_mono hk (h.2.2.1 c hc), h.2.2.2.1, h.2.2.2.2⟩

theorem attachMethod_classLine_map (cn : String) (cl : Nat) (mn : String) (ml : Nat)
    (l : List ParsedClass) :
    (attachMethod cn cl mn ml l).map ParsedClass.classLine =
      l.map ParsedClass.classLine := by
  induction l with
  | nil => rfl
  | cons c rest ih =>
    unfold attachMethod
    by_cases hc : c.className = cn ∧ c.classLine = cl
    · rw [if_pos hc]
      simp
    · rw [if_neg hc]
      simp [ih]

/-- Each record after an attachment is either an untouched original or an
original with the one method appended, the latter only for the record keyed by
the requested class name and line. -/
theorem attachMethod_mem (cn : String) (cl : Nat) (mn : String) (ml : Nat)
    (l : List ParsedClass) :
    ∀ c ∈ attachMethod cn cl mn ml l, ∃ c0 ∈ l,
      c.className = c0.className ∧ c.classLine = c0.classLine ∧
      (c.methods = c0.methods ∨
        (c.methods = c0.methods ++ [(mn, ml)] ∧ c0.className = cn ∧ c0.classLine = cl)) := by
  induction l with
  | nil => intro c h; simp [attachMethod] at h
  | cons d rest ih =>
    intro c h
    unfold attachMethod at h
    by_cases hd : d.className = cn ∧ d.classLine = cl
    · rw [if_pos hd] at h
      rcases List.mem_cons.mp h with rfl | hmem
      · exact ⟨d, List.mem_cons_self d rest, rfl, rfl, Or.inr ⟨rfl, hd.1, hd.2⟩⟩
      · exact ⟨c, List.mem_cons_of_mem d hmem, rfl, rfl, Or.inl rfl⟩
    · rw [if_neg hd] at h
      rcases List.mem_cons.mp h with rfl | hmem
      · exact ⟨c, List.mem_cons_self c rest, rfl, rfl, Or.inl rfl⟩
      · rcases ih c hmem with ⟨c0, hc0, h1, h2, h3⟩
        exact ⟨c0, List.mem_cons_of_mem d hc0, h1, h2, h3⟩

/-- One scan step preserves the invariant when fed the line it indexes. -/
theorem processLine_ok {lines : List String} {k : Nat} {st : ScanState}
    (h : stateOk lines k st) :
    stateOk lines (k + 1) (processLine st k (lines.getD k "")) := by
  obtain ⟨hdesc, hstack, hclasses, hclmap, hmsort⟩ := h
  unfold processLine
  by_cases hskip :
      ((strippedOf (lines.getD k "")).isEmpty
        || ((strippedOf (lines.getD k "")).head? = some '#')) = true
  · rw [if_pos hskip]
    exact stateOk_mono (Nat.le_succ k) ⟨hdesc, hstack, hclasses, hclmap, hmsort⟩
  · rw [if_neg hskip]
    dsimp only
    have hpop_desc := popStack_desc (i := indentOf (lines.getD k "")) hdesc
    have hpop_lt := popStack_lt (i := indentOf (lines.getD k "")) hdesc
    have hpop_entry : ∀ e ∈ popStack (indentOf (lines.getD k "")) st.stack,
        entryOk lines (k + 1) e :=
      fun e he => entryOk_mono (Nat.le_succ k) (hstack e (popStack_sub _ _ e he))
    rcases hm : matchClassFwd (strippedOf (lines.getD k "")) with _ | w
    · dsimp only
      rcases hm2 : matchTestMethod (strippedOf (lines.getD k "")) with _ | w
      · dsimp only
        exact ⟨hpop_desc, hpop_entry,
          fun c hc => classOk_mono (Nat.le_succ k) (hclasses c hc), hclmap, hmsort⟩
      · dsimp only
        rcases hs1 : popStack (indentOf (lines.getD k "")) st.stack with _ | ⟨top, s2⟩
        · dsimp only
          rw [hs1] at hpop_desc hpop_entry
          exact ⟨hpop_desc, hpop_entry,
            fun c hc => classOk_mono (Nat.le_succ k) (hclasses c hc), hclmap, hmsort⟩
        · dsimp only
          rw [hs1] at hpop_desc hpop_entry hpop_lt
          by_cases hind : indentOf (lines.getD k "") ≤ top.indent
          · rw [if_pos hind]
            exact ⟨hpop_desc, hpop_entry,
              fun c hc => classOk_mono (Nat.le_succ k) (hclasses c hc), hclmap, hmsort⟩
          · rw [if_neg hind]
            have htop_mem : top ∈ st.stack := by
              refine popStack_sub (indentOf (lines.getD k "")) st.stack top ?_
              rw [hs1]
              exact List.mem_cons_self top s2
            have htop_ok := hstack top htop_mem
            have htop_lt : top.classLine < k := htop_ok.1
            have htop_ind : indentOf (lines.getD top.classLine "") = top.indent := htop_ok.2
            refine ⟨hpop_desc, hpop_entry, ?_, ?_, ?_⟩
            · intro c hc
              rcases attachMethod_mem _ _ _ _ _ c hc with ⟨c0, hc0, hname, hline, hmet⟩
              have hc0ok := hclasses c0 hc0
              have hc0lt : c0.classLine < k := hc0ok.1
              rcases hmet with he | ⟨he, -, hcl⟩
              · refine ⟨by rw [hline]; omega, ?_⟩
                rw [he, hline]
                intro m hm3
                have hmm := hc0ok.2 m hm3
                exact ⟨Nat.lt_succ_of_lt hmm.1, hmm.2⟩
              · refine ⟨by rw [hline]; omega, ?_⟩
                rw [he, hline]
                intro m hm3
                rcases List.mem_append.mp hm3 with hold | hnew
                · have hmm := hc0ok.2 m hold
                  exact ⟨Nat.lt_succ_of_lt hmm.1, hmm.2⟩
                · simp only [List.mem_singleton] at hnew
                  subst hnew
                  dsimp only
                  refine ⟨by omega, ?_⟩
                  rw [hcl, htop_ind]
                  omega
            · rw [attachMethod_classLine_map]
              exact hclmap
            · intro c hc
              rcases attachMethod_mem _ _ _ _ _ c hc with ⟨c0, hc0, -, -, hmet⟩
              rcases hmet with he | ⟨he, -, -⟩
              · rw [he]
                exact hmsort c0 hc0
              · rw [he, List.map_append, List.pairwise_append]
                refine ⟨hmsort c0 hc0, List.pairwise_singleton _ _, ?_⟩
                intro a ha b hb
                simp only [List.map_cons, List.map_nil, List.mem_singleton] at hb
                subst hb
                rcases List.mem_map.mp ha with ⟨m, hm3, rfl⟩
                have := (hclasses c0 hc0).2 m hm3
                omega
    · dsimp only
      refine ⟨?_, ?_, ?_, ?_, ?_⟩
      · exact List.pairwise_cons.mpr ⟨fun e he => hpop_lt e he, hpop_desc⟩
      · intro e he
        rcases List.mem_cons.mp he with rfl | hmem
        · exact ⟨Nat.lt_succ_self k, rfl⟩
        · exact hpop_entry e hmem
      · intro c hc
        rcases List.mem_append.mp hc with hold | hnew
        · exact classOk_mono (Nat.le_succ k) (hclasses c hold)
        · simp only [List.mem_singleton] at hnew
          subst hnew
          refine ⟨Nat.lt_succ_self k, ?_⟩
          intro m hm3
          simp at hm3
      · rw [List.map_append, List.pairwise_append]
        refine ⟨hclmap, List.pairwise_singleton _ _, ?_⟩
        intro a ha b hb
        simp only [List.map_cons, List.map_nil, List.mem_singleton] at hb
        subst hb
        rcases List.mem_map.mp ha with ⟨c, hc, rfl⟩
        exact (hclasses c hc).1
      · intro c hc
        rcases List.mem_append.mp hc with hold | hnew
        · exact hmsort c hold
        · simp only [List.mem_singleton] at hnew
          subst hnew
          exact List.Pairwise.nil

/-- Running the scan over a coherent tail of the buffer preserves the
invariant. -/
theorem scan_ok (lines : List String) :
    ∀ (rest : List String) (k : Nat) (st : ScanState),
      (∀ i : Nat, i < rest.length → rest.getD i "" = lines.getD (k + i) "") →
      stateOk lines k st →
      stateOk lines (k + rest.length) (scanLines (rest.enumFrom k) st) := by
  intro rest
  induction rest with
  | nil =>
    intro k st _ h
    simpa [scanLines] using h
  | cons x xs ih =>
    intro k st hag h
    have hx : x = lines.getD k "" := by
      have h0 := hag 0 (by simp)
      simpa using h0
    have hshift : ∀ i : Nat, i < xs.length → xs.getD i "" = lines.getD (k + 1 + i) "" := by
      intro i hi
      have hi1 := hag (i + 1) (by simpa using Nat.succ_lt_succ hi)
      have harith : k + (i + 1) = k + 1 + i := by omega
      rw [harith] at hi1
      simpa using hi1
    have h2 : stateOk lines (k + 1) (processLine st k x) := by
      rw [hx]
      exact processLine_ok h
    have h4 := ih (k + 1) (processLine st k x) hshift h2
    have hlen : k + (x :: xs).length = k + 1 + xs.length := by
      simp [List.length_cons]
      omega
    rw [hlen, List.enumFrom_cons]
    exact h4

/-- The invariant at the end of the whole scan. -/
theorem parse_stateOk (lines : List String) :
    stateOk lines lines.length (scanLines lines.enum ⟨[], []⟩) := by
  have hinit : stateOk lines 0 (⟨[], []⟩ : ScanState) := by
    refine ⟨List.Pairwise.nil, ?_, ?_, List.Pairwise.nil, ?_⟩
    · intro e he; simp at he
    · intro c hc; simp at hc
    · intro c hc; simp at hc
  have h := scan_ok lines lines 0 ⟨[], []⟩ (fun i _ => by rw [Nat.zero_add]) hinit
  rw [Nat.zero_add] at h
  exact h

theorem parse_mem_classes {lines : List String} {c : ParsedClass}
    (h : c ∈ parseClassTestMethods lines) :
    c ∈ (scanLines lines.enum ⟨[], []⟩).classes := by
  unfold parseClassTestMethods at h
  exact List.mem_of_mem_filter h

theorem parse_classOk (lines : List String) :
    ∀ c ∈ parseClassTestMethods lines, classOk lines lines.length c :=
  fun c hc => (parse_stateOk lines).2.2.1 c (parse_mem_classes hc)

theorem parse_classLine_pairwise (lines : List String) :
    ((parseClassTestMethods lines).map ParsedClass.classLine).Pairwise (· < ·) := by
  have hsub : List.Sublist (parseClassTestMethods lines)
      (scanLines lines.enum ⟨[], []⟩).classes :=
    List.filter_sublist _
  exact List.Pairwise.sublist (hsub.map ParsedClass.classLine)
    (parse_stateOk lines).2.2.2.1

theorem parse_methods_pairwise (lines : List String) :
    ∀ c ∈ parseClassTestMethods lines, (c.methods.map Prod.snd).Pairwise (· < ·) :=
  fun c hc => (parse_stateOk lines).2.2.2.2 c (parse_mem_classes hc)

theorem parse_methods_ne_nil (lines : List String) :
    ∀ c ∈ parseClassTestMethods lines, c.methods ≠ [] := by
  intro c hc
  unfold parseClassTestMethods at hc
  have := List.of_mem_filter hc
  simpa [List.isEmpty_iff] using this

/-- The file node exists exactly when the parse retained some class. -/
theorem buildFileNode_isSome_iff (uri name : String) (lines : List String) :
    (buildFileNode uri name lines).isSome ↔ parseClassTestMethods lines ≠ [] := by
  unfold buildFileNode
  rcases hp : parseClassTestMethods lines with _ | ⟨c, rest⟩
  · simp
  · have hc : c ∈ parseClassTestMethods lines := hp ▸ List.mem_cons_self c rest
    have hne := parse_methods_ne_nil lines c hc
    rw [if_neg (by simp)]
    dsimp only
    have hany : ((c :: rest).any fun c => !c.methods.isEmpty) = true := by
      rw [List.any_cons]
      refine Bool.or_eq_true_iff.mpr (Or.inl ?_)
      simpa [List.isEmpty_iff] using hne
    rw [if_pos hany]
    simp

/-! ### Claim theorems for the forward scan -/

/-- C5: on every scanned line all stack entries with indent at or above the
current line's indent are popped first (completely, for the well-formed stacks
the scan builds); a test method is attached only to a class strictly shallower
than it — every catalog method lies on a line strictly deeper than its class
line — and consequently a module-level test function after a class block at
indent 0 attaches to no class. -/
theorem testMethod_attachment (lines : List String) :
    (∀ (i : Nat) (s : List StackEntry), stackDesc s → ∀ e ∈ popStack i s, e.indent < i)
    ∧ (∀ entry ∈ parseClassTestMethods lines, ∀ m ∈ entry.methods,
        indentOf (lines.getD entry.classLine "") < indentOf (lines.getD m.2 ""))
    ∧ parseClassTestMethods
        ["class A:", "    def helper(self):", "        pass", "def test_foo():"] = [] := by
  refine ⟨fun i s hs => popStack_lt hs, ?_, by rfl⟩
  intro entry he m hm
  exact (((parse_classOk lines) entry he).2 m hm).2

/-- Witness for C5 at a concrete buffer with one attached method. -/
theorem testMethod_attachment_witness :
    indentOf ((["class A:", "    def test_x(self):"]).getD 0 "") <
      indentOf ((["class A:", "    def test_x(self):"]).getD 1 "") :=
  (testMethod_attachment ["class A:", "    def test_x(self):"]).2.1
    ⟨"A", 0, [("test_x", 1)]⟩ (by decide) ("test_x", 1) (by decide)

/-- C6: the catalog retains exactly the classes with at least one qualifying
method, in first-seen order (strictly increasing class lines), each with its
methods in line order; the per-file tree is built exactly when such a class
exists; and on the example buffer the catalog is exactly class A with the
single method test_x, with B absent. -/
theorem catalog_contents (uri name : String) (lines : List String) :
    ((parseClassTestMethods lines).map ParsedClass.classLine).Pairwise (· < ·)
    ∧ (∀ c ∈ parseClassTestMethods lines,
        c.methods ≠ [] ∧ (c.methods.map Prod.snd).Pairwise (· < ·))
    ∧ ((buildFileNode uri name lines).isSome ↔ parseClassTestMethods lines ≠ [])
    ∧ parseClassTestMethods
        ["class A:", "    def test_x(self):", "        pass",
          "class B:", "    def helper(self):", "        pass"] =
        [⟨"A", 0, [("test_x", 1)]⟩] := by
  refine ⟨parse_classLine_pairwise lines, ?_,
    buildFileNode_isSome_iff uri name lines, by rfl⟩
  intro c hc
  exact ⟨parse_methods_ne_nil lines c hc, parse_methods_pairwise lines c hc⟩

/-- Witness for C6: the tree exists for a concrete buffer with one test. -/
theorem catalog_contents_witness :
    (buildFileNode "u" "n" ["class A:", "    def test_x(self):"]).isSome :=
  (catalog_contents "u" "n" ["class A:", "    def test_x(self):"]).2.2.1.mpr (by decide)

/-! ### Decimal rendering of line numbers (for node ids) -/

theorem decDigits_lt {n : Nat} (h : n < 10) : decDigits n = [Nat.digitChar n] := by
  unfold decDigits
  rw [dif_pos h]

theorem decDigits_ge {n : Nat} (h : ¬ n < 10) :
    decDigits n = decDigits (n / 10) ++ [Nat.digitChar (n % 10)] := by
  conv_lhs => rw [decDigits]
  rw [dif_neg h]

theorem toDigitsCore_eq (fuel : Nat) :
    ∀ (n : Nat) (ds : List Char), n < fuel →
      Nat.toDigitsCore 10 fuel n ds = decDigits n ++ ds := by
  induction fuel with
  | zero => intro n ds h; omega
  | succ fuel ih =>
    intro n ds h
    unfold Nat.toDigitsCore
    dsimp only
    by_cases h10 : n / 10 = 0
    · rw [if_pos h10]
      have hlt : n < 10 := by omega
      rw [decDigits_lt hlt, Nat.mod_eq_of_lt hlt]
      rfl
    · rw [if_neg h10]
      have hge : ¬ n < 10 := by omega
      rw [ih (n / 10) _ (by omega)]
      rw [decDigits_ge hge]
      simp [List.append_assoc]

theorem natToString_data (n : Nat) : (toString n).data = decDigits n := by
  show (Nat.repr n).data = decDigits n
  unfold Nat.repr Nat.toDigits
  rw [toDigitsCore_eq (n + 1) n [] (Nat.lt_succ_self n)]
  show decDigits n ++ [] = decDigits n
  simp

theorem digitChar_isDigit {n : Nat} (h : n < 10) : (Nat.digitChar n).isDigit = true := by
  interval_cases n <;> decide

theorem decDigits_all_digits (n : Nat) : ∀ ch ∈ decDigits n, ch.isDigit = true := by
  induction n using Nat.strong_induction_on with
  | _ n ih =>
    by_cases h : n < 10
    · rw [decDigits_lt h]
      intro ch hch
      simp only [List.mem_singleton] at hch
      subst hch
      exact digitChar_isDigit h
    · rw [decDigits_ge h]
      intro ch hch
      rcases List.mem_append.mp hch with h1 | h2
      · exact ih (n / 10) (by omega) ch h1
      · simp only [List.mem_singleton] at h2
        subst h2
        exact digitChar_isDigit (Nat.mod_lt n (by omega))

theorem digitVal_digitChar {n : Nat} (h : n < 10) : digitVal (Nat.digitChar n) = n := by
  interval_cases n <;> decide

theorem decDigits_foldl (n : Nat) :
    ∀ a : Nat, (decDigits n).foldl (fun acc c => acc * 10 + digitVal c) a =
      a * 10 ^ (decDigits n).length + n := by
  induction n using Nat.strong_induction_on with
  | _ n ih =>
    intro a
    by_cases h : n < 10
    · rw [decDigits_lt h]
      simp [digitVal_digitChar h]
    · rw [decDigits_ge h]
      rw [List.foldl_append]
      rw [ih (n / 10) (by omega) a]
      have hdm : n / 10 * 10 + n % 10 = n := by omega
      simp only [List.foldl_cons, List.foldl_nil, List.length_append, List.length_singleton]
      rw [digitVal_digitChar (Nat.mod_lt n (by omega))]
      calc (a * 10 ^ (decDigits (n / 10)).length + n / 10) * 10 + n % 10
          = a * (10 ^ (decDigits (n / 10)).length * 10) + (n / 10 * 10 + n % 10) := by ring
        _ = a * 10 ^ ((decDigits (n / 10)).length + 1) + n := by rw [hdm, pow_succ]

theorem decDigits_inj {m n : Nat} (h : decDigits m = decDigits n) : m = n := by
  have hm := decDigits_foldl m 0
  have hn := decDigits_foldl n 0
  rw [h] at hm
  simp only [Nat.zero_mul, Nat.zero_add] at hm hn
  rw [hm] at hn
  exact hn

theorem natToString_inj {m n : Nat} (h : toString m = toString n) : m = n := by
  apply decDigits_inj
  rw [← natToString_data, ← natToString_data, h]

theorem natToString_digits (n : Nat) : ∀ ch ∈ (toString n).data, ch.isDigit = true := by
  intro ch hch
  rw [natToString_data] at hch
  exact decDigits_all_digits n ch hch

/-! ### Colon-free segments and id injectivity -/

theorem natToString_colonFree (n : Nat) : colonFree (toString n).data := by
  intro ch hch hcon
  have hd := natToString_digits n ch hch
  subst hcon
  exact absurd hd (by decide)

/-- A colon-separated concatenation with colon-free first segments splits
uniquely at the first colon. -/
theorem colon_split_inj {a u : List Char} :
    ∀ {b v : List Char}, colonFree a → colonFree b →
      a ++ ':' :: u = b ++ ':' :: v → a = b ∧ u = v := by
  induction a generalizing u with
  | nil =>
    intro b v _ hb h
    rcases b with _ | ⟨b0, bs⟩
    · simpa using h
    · simp only [List.nil_append, List.cons_append, List.cons.injEq] at h
      exact absurd h.1.symm (hb b0 (List.mem_cons_self b0 bs))
  | cons a0 as ih =>
    intro b v ha hb h
    rcases b with _ | ⟨b0, bs⟩
    · simp only [List.cons_append, List.nil_append, List.cons.injEq] at h
      exact absurd h.1 (ha a0 (List.mem_cons_self a0 as))
    · simp only [List.cons_append, List.cons.injEq] at h
      obtain ⟨h0, h1⟩ := h
      have hr := ih (fun ch hch => ha ch (List.mem_cons_of_mem a0 hch))
        (fun ch hch => hb ch (List.mem_cons_of_mem b0 hch)) h1
      exact ⟨by rw [h0, hr.1], hr.2⟩

theorem colonFree_ne_append_colon {b : List Char} (hb : colonFree b) (a u : List Char) :
    b ≠ a ++ ':' :: u := by
  intro h
  have hmem : ':' ∈ b := by
    rw [h]
    exact List.mem_append.mpr (Or.inr (List.mem_cons_self _ _))
  exact hb ':' hmem rfl

theorem wordOnly_colonFree {l : List Char} (h : wordOnly l) : colonFree l := by
  intro ch hch hcon
  have hw := h ch hch
  subst hcon
  exact absurd hw (by decide)

theorem matchClassFwd_wordOnly {cs w : List Char} (h : matchClassFwd cs = some w) :
    wordOnly w := by
  unfold matchClassFwd at h
  split at h
  · simp at h
  · split at h
    · simp at h
    · split at h
      · simp at h
      · split at h
        · rename_i hlet
          rw [Option.some_inj] at h
          subst h
          intro ch hch
          rcases List.mem_cons.mp hch with rfl | hmem
          · exact isWordChar_of_first _ hlet
          · exact List.mem_takeWhile_imp hmem
        · simp at h

theorem matchTestMethod_wordOnly {cs w : List Char} (h : matchTestMethod cs = some w) :
    wordOnly w := by
  unfold matchTestMethod at h
  split at h
  · simp at h
  · split at h
    · simp at h
    · split at h
      · simp at h
      · split at h
        · rw [Option.some_inj] at h
          subst h
          intro ch hch
          rcases List.mem_append.mp hch with h1 | h2
          · have : ch ∈ ("test_".data) := h1
            fin_cases this <;> decide
          · exact List.mem_takeWhile_imp h2
        · simp at h

theorem processLine_namesWordOnly {st : ScanState} {idx : Nat} {ln : String}
    (h : namesWordOnly st) : namesWordOnly (processLine st idx ln) := by
  unfold processLine
  by_cases hskip : ((strippedOf ln).isEmpty || ((strippedOf ln).head? = some '#')) = true
  · rw [if_pos hskip]
    exact h
  · rw [if_neg hskip]
    dsimp only
    rcases hm : matchClassFwd (strippedOf ln) with _ | w
    · dsimp only
      rcases hm2 : matchTestMethod (strippedOf ln) with _ | w
      · exact h
      · dsimp only
        rcases hs1 : popStack (indentOf ln) st.stack with _ | ⟨top, s2⟩
        · exact h
        · dsimp only
          by_cases hind : indentOf ln ≤ top.indent
          · rw [if_pos hind]
            exact h
          · rw [if_neg hind]
            intro c hc
            rcases attachMethod_mem _ _ _ _ _ c hc with ⟨c0, hc0, hname, -, hmet⟩
            have hc0w := h c0 hc0
            refine ⟨hname ▸ hc0w.1, ?_⟩
            rcases hmet with he | ⟨he, -, -⟩
            · rw [he]
              exact hc0w.2
            · rw [he]
              intro m hmem
              rcases List.mem_append.mp hmem with hold | hnew
              · exact hc0w.2 m hold
              · simp only [List.mem_singleton] at hnew
                subst hnew
                exact matchTestMethod_wordOnly hm2
    · dsimp only
      intro c hc
      rcases List.mem_append.mp hc with hold | hnew
      · exact h c hold
      · simp only [List.mem_singleton] at hnew
        subst hnew
        refine ⟨matchClassFwd_wordOnly hm, ?_⟩
        intro m hm3
        simp at hm3

theorem scanLines_namesWordOnly (pairs : List (Nat × String)) :
    ∀ st : ScanState, namesWordOnly st → namesWordOnly (scanLines pairs st) := by
  induction pairs with
  | nil => intro st h; exact h
  | cons p rest ih =>
    intro st h
    exact ih (processLine st p.1 p.2) (processLine_namesWordOnly h)

theorem parse_namesWordOnly (lines : List String) :
    ∀ c ∈ parseClassTestMethods lines,
      wordOnly c.className.data ∧ ∀ m ∈ c.methods, wordOnly m.1.data := by
  intro c hc
  refine scanLines_namesWordOnly lines.enum ⟨[], []⟩ ?_ c (parse_mem_classes hc)
  intro c0 hc0
  simp at hc0

/-! ### Id decompositions and distinctness -/

theorem classIdOf_data (fid : String) (c : ParsedClass) :
    (classIdOf fid c).data =
      fid.data ++ ((":class:" : String).data ++
        (c.className.data ++ ':' :: (toString c.classLine).data)) := by
  unfold classIdOf
  simp [String.data_append, List.append_assoc]

theorem methodIdOf_data (cid mn : String) (ml : Nat) :
    (methodIdOf cid mn ml).data =
      cid.data ++ ((":method:" : String).data ++
        (mn.data ++ ':' :: (toString ml).data)) := by
  unfold methodIdOf
  simp [String.data_append, List.append_assoc]

theorem classIdOf_inj {fid : String} {c1 c2 : ParsedClass}
    (h1 : wordOnly c1.className.data) (h2 : wordOnly c2.className.data)
    (h : classIdOf fid c1 = classIdOf fid c2) :
    c1.className = c2.className ∧ c1.classLine = c2.classLine := by
  have hd := congrArg String.data h
  rw [classIdOf_data, classIdOf_data] at hd
  have hd2 := List.append_cancel_left (List.append_cancel_left hd)
  have hsplit := colon_split_inj (wordOnly_colonFree h1) (wordOnly_colonFree h2) hd2
  refine ⟨String.ext hsplit.1, natToString_inj (String.ext hsplit.2)⟩

theorem methodId_ne_classId {fid : String} {c1 c2 : ParsedClass} {mn : String} {ml : Nat}
    (h1 : wordOnly c1.className.data) (h2 : wordOnly c2.className.data) :
    methodIdOf (classIdOf fid c1) mn ml ≠ classIdOf fid c2 := by
  intro h
  have hd := congrArg String.data h
  rw [methodIdOf_data, classIdOf_data, classIdOf_data] at hd
  simp only [List.append_assoc, List.cons_append] at hd
  have hd1 := List.append_cancel_left hd
  simp only [List.cons.injEq, List.nil_append, true_and] at hd1
  have hsplit := colon_split_inj (wordOnly_colonFree h1) (wordOnly_colonFree h2) hd1
  exact colonFree_ne_append_colon (natToString_colonFree c2.classLine) _ _ hsplit.2.symm

theorem methodIdOf_inj {fid : String} {c1 c2 : ParsedClass} {mn1 mn2 : String}
    {ml1 ml2 : Nat}
    (h1 : wordOnly c1.className.data) (h2 : wordOnly c2.className.data)
    (hm1 : wordOnly mn1.data) (hm2 : wordOnly mn2.data)
    (h : methodIdOf (classIdOf fid c1) mn1 ml1 = methodIdOf (classIdOf fid c2) mn2 ml2) :
    c1.className = c2.className ∧ c1.classLine = c2.classLine ∧ mn1 = mn2 ∧ ml1 = ml2 := by
  have hd := congrArg String.data h
  rw [methodIdOf_data, methodIdOf_data, classIdOf_data, classIdOf_data] at hd
  simp only [List.append_assoc, List.cons_append] at hd
  have hd1 := List.append_cancel_left hd
  simp only [List.cons.injEq, List.nil_append, true_and] at hd1
  have hsplit := colon_split_inj (wordOnly_colonFree h1) (wordOnly_colonFree h2) hd1
  have hsplit2 := colon_split_inj (natToString_colonFree c1.classLine)
    (natToString_colonFree c2.classLine) hsplit.2
  have hrest2 := hsplit2.2
  simp only [List.cons.injEq, List.nil_append, true_and] at hrest2
  have hsplit3 := colon_split_inj (wordOnly_colonFree hm1) (wordOnly_colonFree hm2) hrest2
  exact ⟨String.ext hsplit.1, natToString_inj (String.ext hsplit2.1),
    String.ext hsplit3.1, natToString_inj (String.ext hsplit3.2)⟩

theorem fileId_ne_classId (f : String) (c : ParsedClass) : f ≠ classIdOf f c := by
  intro h
  have hd := congrArg String.data h
  rw [classIdOf_data] at hd
  have hl := congrArg List.length hd
  simp only [List.length_append, List.length_cons] at hl
  have h7 : (((":class:" : String).data).length) = 7 := by decide
  omega

theorem fileId_ne_methodId (f : String) (c : ParsedClass) (mn : String) (ml : Nat) :
    f ≠ methodIdOf (classIdOf f c) mn ml := by
  intro h
  have hd := congrArg String.data h
  rw [methodIdOf_data, classIdOf_data] at hd
  have hl := congrArg List.length hd
  simp only [List.length_append, List.length_cons] at hl
  have h7 : (((":class:" : String).data).length) = 7 := by decide
  have h8 : (((":method:" : String).data).length) = 8 := by decide
  omega

/-- The ids of a built tree, expressed over the parse result. -/
theorem buildFileNode_ids {uri name : String} {lines : List String} {t : FileNode}
    (h : buildFileNode uri name lines = some t) :
    fileNodeIds t =
      fileIdOf uri :: (parseClassTestMethods lines).flatMap (fun c =>
        classIdOf (fileIdOf uri) c ::
          c.methods.map (fun m => methodIdOf (classIdOf (fileIdOf uri) c) m.1 m.2)) := by
  unfold buildFileNode at h
  dsimp only at h
  split at h
  · simp at h
  · split at h
    · rw [Option.some_inj] at h
      subst h
      unfold fileNodeIds
      dsimp only
      simp only [List.flatMap_map, List.map_map]
      rfl
    · simp at h

/-- C9: within a single catalog rebuild of one buffer, the ids of the file
node, the class nodes and the method nodes are pairwise distinct; in
particular two discovered methods (or classes) sharing a name but sitting on
different definition lines receive different ids. -/
theorem nodeIds_nodup :
    (∀ (uri name : String) (lines : List String), (allNodeIds uri name lines).Nodup)
    ∧ (allNodeIds "file:///t.py" "t.py"
        ["class A:", "    def test_x(self):", "    def test_x(self):"]).Nodup := by
  refine ⟨?_, by decide⟩
  intro uri name lines
  unfold allNodeIds
  rcases hb : buildFileNode uri name lines with _ | t
  · exact List.nodup_nil
  · dsimp only
    rw [buildFileNode_ids hb]
    refine List.nodup_cons.mpr ⟨?_, ?_⟩
    · intro hmem
      rcases List.mem_flatMap.mp hmem with ⟨c, hc, hx⟩
      rcases List.mem_cons.mp hx with heq | hx2
      · exact fileId_ne_classId (fileIdOf uri) c heq
      · rcases List.mem_map.mp hx2 with ⟨m, hm, heq⟩
        exact fileId_ne_methodId (fileIdOf uri) c m.1 m.2 heq.symm
    · rw [List.nodup_flatMap]
      constructor
      · intro c hc
        obtain ⟨hcw, hmw⟩ := parse_namesWordOnly lines c hc
        refine List.nodup_cons.mpr ⟨?_, ?_⟩
        · intro hmem
          rcases List.mem_map.mp hmem with ⟨m, hm, heq⟩
          exact methodId_ne_classId hcw hcw heq
        · have hp2 : c.methods.Pairwise (fun m1 m2 => m1.2 < m2.2) :=
            List.pairwise_map.mp (parse_methods_pairwise lines c hc)
          have hnd : c.methods.Nodup := by
            refine hp2.imp ?_
            intro m1 m2 hlt heq
            rw [heq] at hlt
            exact lt_irrefl _ hlt
          refine List.Nodup.map_on ?_ hnd
          intro m1 hm1 m2 hm2 heq
          have hinj := methodIdOf_inj hcw hcw (hmw m1 hm1) (hmw m2 hm2) heq
          exact Prod.ext hinj.2.2.1 hinj.2.2.2
      · have hcl2 : (parseClassTestMethods lines).Pairwise
            (fun a b => a.classLine < b.classLine) :=
          List.pairwise_map.mp (parse_classLine_pairwise lines)
        refine hcl2.imp_of_mem ?_
        intro c1 c2 h1mem h2mem hlt
        obtain ⟨h1w, h1mw⟩ := parse_namesWordOnly lines c1 h1mem
        obtain ⟨h2w, h2mw⟩ := parse_namesWordOnly lines c2 h2mem
        intro x hx1 hx2
        rcases List.mem_cons.mp hx1 with rfl | hxm1
        · rcases List.mem_cons.mp hx2 with heq | hxm2
          · have h22 := (classIdOf_inj h1w h2w heq).2
            omega
          · rcases List.mem_map.mp hxm2 with ⟨m, hm, heq⟩
            exact methodId_ne_classId h2w h1w heq
        · rcases List.mem_map.mp hxm1 with ⟨m1, hm1, rfl⟩
          rcases List.mem_cons.mp hx2 with heq | hxm2
          · exact methodId_ne_classId h1w h2w heq
          · rcases List.mem_map.mp hxm2 with ⟨m2, hm2, heq⟩
            have hinj := methodIdOf_inj h2w h1w (h2mw m2 hm2) (h1mw m1 hm1) heq
            have h22 := hinj.2.1
            omega

end PyFqn
